import Mathlib

set_option maxHeartbeats 1000000
set_option maxRecDepth 8000

/-! Shallow embedding of the `lava-file` typed filesystem facade
(`src/FileSystem.ts`, `src/ItemType.ts`, `src/FileItemHandle.ts`).

Paths are strings over the POSIX separator `'/'`.  The Node `path`
functions used by the source (`normalize`, `resolve`, `dirname`,
`basename`, `sep`) are modelled character by character after Node's
posix implementations.  Fallible OS primitives (`rename`, `mkdir`,
`open`, `close`, `lstat`, `readlink`) are passed in as oracles, and
every OS call an operation issues is recorded in an explicit effect
trace, so "fails before any filesystem mutation" is expressed as "the
effect trace is empty". -/

namespace LavaFile

/-- Tests whether a character list begins with the separator
(Node's `path.charCodeAt(0) === CHAR_FORWARD_SLASH`). -/
def isAbsChars : List Char → Bool
  | [] => false
  | c :: _ => c == '/'

/-- Tests whether a character list ends with the separator
(Node's `path.charCodeAt(path.length - 1) === CHAR_FORWARD_SLASH`). -/
def isSepLast (p : List Char) : Bool :=
  match p.reverse with
  | [] => false
  | c :: _ => c == '/'

/-- JavaScript `str.split('/')` on character lists (as used by
`Directory.isSub`); an empty string splits to `[""]`. -/
def splitSegs : List Char → List (List Char)
  | [] => [[]]
  | c :: rest =>
    match splitSegs rest with
    | [] => [[]]
    | s :: ss => if c = '/' then [] :: s :: ss else (c :: s) :: ss

/-- JavaScript `arr.join('/')` on character lists. -/
def joinSegs : List (List Char) → List Char
  | [] => []
  | [s] => s
  | s :: t :: rest => s ++ '/' :: joinSegs (t :: rest)

/-- Node's `normalizeString`: resolves `.` and `..` segments; `allow` is
Node's `allowAboveRoot` (true exactly for relative paths), and `acc`
holds the already-produced output segments in reverse order. -/
def normSegs (allow : Bool) (acc : List (List Char)) : List (List Char) → List (List Char)
  | [] => acc.reverse
  | s :: rest =>
    if s = [] ∨ s = ['.'] then normSegs allow acc rest
    else if s = ['.', '.'] then
      match acc with
      | [] => normSegs allow (if allow then [['.', '.']] else []) rest
      | t :: tl =>
        if t = ['.', '.'] then
          if allow then normSegs allow (s :: acc) rest else normSegs allow acc rest
        else normSegs allow tl rest
    else normSegs allow (s :: acc) rest

/-- Node `path.posix.normalize` on character lists. -/
def normalizeChars (p : List Char) : List Char :=
  if p = [] then ['.']
  else
    let isAbs := isAbsChars p
    let trailing := isSepLast p
    let body := joinSegs (normSegs (!isAbs) [] (splitSegs p))
    if body = [] then
      if isAbs = true then ['/'] else if trailing = true then ['.', '/'] else ['.']
    else
      let body' := if trailing = true then body ++ ['/'] else body
      if isAbs = true then '/' :: body' else body'

/-- The accumulation loop of Node `path.posix.resolve`: the argument
paths are joined from right to left, stopping at the first absolute
one; the returned flag says whether an absolute path was reached. -/
def resolveJoin : List (List Char) → List Char × Bool
  | [] => ([], false)
  | p :: rest =>
    match resolveJoin rest with
    | (acc, true) => (acc, true)
    | (acc, false) => if p = [] then (acc, false) else (p ++ '/' :: acc, isAbsChars p)

/-- Node `path.posix.resolve` on character lists; `cwd` plays the role
of `process.cwd()`, which Node tries last. -/
def pathResolve (cwd : List Char) (args : List (List Char)) : List Char :=
  let (joined, abs) := resolveJoin (cwd :: args)
  let body := joinSegs (normSegs (!abs) [] (splitSegs joined))
  if abs = true then '/' :: body
  else if body = [] then ['.'] else body

/-- Node `path.posix.dirname` on character lists: skip trailing
separators, skip the final segment, and keep everything before the
separator that preceded it. -/
def dirnameChars (p : List Char) : List Char :=
  if p = [] then ['.']
  else
    let hasRoot := isAbsChars p
    let r2 := (p.reverse.dropWhile (· == '/')).dropWhile (· != '/')
    if r2.length ≤ 1 then (if hasRoot = true then ['/'] else ['.'])
    else if hasRoot = true ∧ r2.length = 2 then ['/', '/']
    else (r2.drop 1).reverse

/-- Node `path.posix.basename` (without the extension argument) on
character lists. -/
def basenameChars (p : List Char) : List Char :=
  ((p.reverse.dropWhile (· == '/')).takeWhile (· != '/')).reverse

/-- Node `path` functions lifted to `String`, as the source imports
them from `'path'`. -/
def NodePath.normalize (s : String) : String := String.mk (normalizeChars s.toList)

/-- Node `path.posix.resolve` on strings; `cwd` models `process.cwd()`. -/
def NodePath.resolve (cwd : String) (args : List String) : String :=
  String.mk (pathResolve cwd.toList (args.map String.toList))

/-- Node `path.posix.dirname` on strings. -/
def NodePath.dirname (s : String) : String := String.mk (dirnameChars s.toList)

/-- Node `path.posix.basename` on strings. -/
def NodePath.basename (s : String) : String := String.mk (basenameChars s.toList)

/-- JavaScript `s.includes(sep)` with `sep = '/'`: does the string
contain the separator character. -/
def containsSepStr (s : String) : Bool := decide ('/' ∈ s.toList)

/-- POSIX file-type constants from Node `fs.constants`. -/
def S_IFMT : Nat := 61440
/-- Block-device bit pattern (`fs.constants.S_IFBLK`). -/
def S_IFBLK : Nat := 24576
/-- Character-device bit pattern (`fs.constants.S_IFCHR`). -/
def S_IFCHR : Nat := 8192
/-- Directory bit pattern (`fs.constants.S_IFDIR`). -/
def S_IFDIR : Nat := 16384
/-- FIFO bit pattern (`fs.constants.S_IFIFO`). -/
def S_IFIFO : Nat := 4096
/-- Regular-file bit pattern (`fs.constants.S_IFREG`). -/
def S_IFREG : Nat := 32768
/-- Socket bit pattern (`fs.constants.S_IFSOCK`). -/
def S_IFSOCK : Nat := 49152
/-- Symbolic-link bit pattern (`fs.constants.S_IFLNK`). -/
def S_IFLNK : Nat := 40960

/-- The seven entry kinds of `src/ItemType.ts`. -/
inductive ItemType where
  | BlockDevice
  | CharacterDevice
  | Directory
  | FIFO
  | File
  | Socket
  | SymbolicLink
  deriving DecidableEq, Repr

/-- The numeric enum value attached to each `ItemType` member in
`src/ItemType.ts`. -/
def ItemType.val : ItemType → Nat
  | .BlockDevice => S_IFBLK
  | .CharacterDevice => S_IFCHR
  | .Directory => S_IFDIR
  | .FIFO => S_IFIFO
  | .File => S_IFREG
  | .Socket => S_IFSOCK
  | .SymbolicLink => S_IFLNK

/-- The error values the facade can produce: the three custom error
classes of `FileSystem.ts`, the defensive `new Error()` of the
type-dispatch function, the not-found rejection of `lstat`, and
pass-through OS errors (identified by an abstract code). -/
inductive Err where
  | typeNotMatch
  | notName
  | circulate
  | unknownItemType
  | notFound
  | osErr (code : Nat)
  deriving DecidableEq, Repr

instance {ε α : Type} [DecidableEq ε] [DecidableEq α] : DecidableEq (Except ε α) := fun x y =>
  match x, y with
  | .ok a, .ok b =>
    if h : a = b then .isTrue (by rw [h]) else .isFalse (by intro hh; cases hh; exact h rfl)
  | .ok _, .error _ => .isFalse (by intro hh; cases hh)
  | .error _, .ok _ => .isFalse (by intro hh; cases hh)
  | .error e, .error f =>
    if h : e = f then .isTrue (by rw [h]) else .isFalse (by intro hh; cases hh; exact h rfl)

/-- The OS calls issued by the operations modelled here; an operation's
trace is the list of calls it issued, in order. -/
inductive Effect where
  | osRename (src dest : String)
  | osMkdir (path : String)
  | osOpenFd (path : String)
  | osOpenDir (path : String)
  | osCloseFd
  | osCloseDir
  deriving DecidableEq, Repr

/-- A filesystem entry: the fixed type tag of its concrete class and
its stored (mutable, in TS) `_path` field. -/
structure FileSystemItem where
  type : ItemType
  path : String
  deriving DecidableEq, Repr

/-- The `FileSystemItem` constructor: `path = resolve(process.cwd(), path)`. -/
def mkItem (cwd : String) (ty : ItemType) (path : String) : FileSystemItem :=
  { type := ty, path := NodePath.resolve cwd [cwd, path] }

/-- `FileSystemItem.rename` (`FileSystem.ts:158`): rejects with
`NotNameError` when the normalized new name contains the separator,
otherwise renames `this.path` to `resolve(dirname(this.path), newName)`
and updates the stored path on success.  `osRen` is the outcome of the
underlying `promises.rename`. -/
def FileSystemItem.rename (cwd : String) (it : FileSystemItem) (newName : String)
    (osRen : String → String → Except Err Unit) :
    FileSystemItem × Except Err Unit × List Effect :=
  if containsSepStr (NodePath.normalize newName) = true then (it, .error .notName, [])
  else
    let dir := NodePath.dirname it.path
    let newName' := NodePath.resolve cwd [dir, newName]
    match osRen it.path newName' with
    | .error e => (it, .error e, [.osRename it.path newName'])
    | .ok _ => ({ it with path := newName' }, .ok (), [.osRename it.path newName'])

/-- `FileLikeItem.moveTo` (`FileSystem.ts:407`): resolves the target
against `dirname(this.path)` when `baseCwd` is false; with
`baseCwd = true` the source has no resolution branch and uses the
argument verbatim. -/
def FileLikeItem.moveTo (cwd : String) (it : FileSystemItem) (newPath : String)
    (baseCwd : Bool) (osRen : String → String → Except Err Unit) :
    FileSystemItem × Except Err Unit × List Effect :=
  let newPath' := if !baseCwd then NodePath.resolve cwd [NodePath.dirname it.path, newPath]
                  else newPath
  match osRen it.path newPath' with
  | .error e => (it, .error e, [.osRename it.path newPath'])
  | .ok _ => ({ it with path := newPath' }, .ok (), [.osRename it.path newPath'])

/-- `Directory.isSub` (`FileSystem.ts:506`): segment-wise comparison of
the `split(sep)` arrays. -/
def Directory.isSub (parentPath subPath : String) : Bool :=
  let pArr := splitSegs parentPath.toList
  let sArr := splitSegs subPath.toList
  if sArr.length < pArr.length then false
  else (pArr.zip sArr).all fun pr => decide (pr.1 = pr.2)

/-- The destination resolution shared by `Directory.moveTo`
(`FileSystem.ts:462`) and `Directory.copy` (`FileSystem.ts:482`):
against `dirname(this.path)` when `baseCwd` is false, against
`process.cwd()` otherwise. -/
def Directory.resolveDest (cwd itPath dest : String) (baseCwd : Bool) : String :=
  if !baseCwd then NodePath.resolve cwd [NodePath.dirname itPath, dest]
  else NodePath.resolve cwd [cwd, dest]

/-- `Directory.moveTo` (`FileSystem.ts:462`): resolves the destination,
throws `CirculateError` when `isSub(this.path, newPath)`, otherwise
renames and updates the stored path. -/
def Directory.moveTo (cwd : String) (it : FileSystemItem) (newPath : String)
    (baseCwd : Bool) (osRen : String → String → Except Err Unit) :
    FileSystemItem × Except Err Unit × List Effect :=
  let newPath' := Directory.resolveDest cwd it.path newPath baseCwd
  if Directory.isSub it.path newPath' = true then (it, .error .circulate, [])
  else
    match osRen it.path newPath' with
    | .error e => (it, .error e, [.osRename it.path newPath'])
    | .ok _ => ({ it with path := newPath' }, .ok (), [.osRename it.path newPath'])

/-- `Directory.copy` (`FileSystem.ts:482`): resolves the destination,
throws `CirculateError` when `isSub(this.path, dest)`, otherwise
creates the destination directory and recursively copies the children.
`osMk` is the outcome of `promises.mkdir`; `children` abstracts the
`open`/iterate/recursive-copy loop over the destination directory's
path, returning its outcome and the trace of OS calls it issued. -/
def Directory.copy (cwd : String) (it : FileSystemItem) (dest : String) (baseCwd : Bool)
    (osMk : String → Except Err Unit)
    (children : String → Except Err Unit × List Effect) :
    Except Err FileSystemItem × List Effect :=
  let dest' := Directory.resolveDest cwd it.path dest baseCwd
  if Directory.isSub it.path dest' = true then (.error .circulate, [])
  else
    match osMk dest' with
    | .error e => (.error e, [.osMkdir dest'])
    | .ok _ =>
      let destDir := mkItem cwd .Directory dest'
      match children destDir.path with
      | (.error e, tr) => (.error e, .osMkdir dest' :: tr)
      | (.ok _, tr) => (.ok destDir, .osMkdir dest' :: tr)

/-- `SymbolicLink.moveTo` (`FileSystem.ts:630`): resolves the target
against `dirname(this.path)` when `baseCwd` is false and delegates to
`rename`. -/
def SymbolicLink.moveTo (cwd : String) (it : FileSystemItem) (newPath : String)
    (baseCwd : Bool) (osRen : String → String → Except Err Unit) :
    FileSystemItem × Except Err Unit × List Effect :=
  let newPath' := if !baseCwd then NodePath.resolve cwd [NodePath.dirname it.path, newPath]
                  else newPath
  FileSystemItem.rename cwd it newPath' osRen

/-- The free type-dispatch function `getItem` (`FileSystem.ts:796`):
maps a raw type bit pattern to the matching concrete entry class, and
throws for any other pattern (`UnknownItemType` in the spec's
taxonomy). -/
def getItem (type : Nat) (path : String) (cwd : String) : Except Err FileSystemItem :=
  if type = S_IFBLK then .ok (mkItem cwd .BlockDevice path)
  else if type = S_IFCHR then .ok (mkItem cwd .CharacterDevice path)
  else if type = S_IFDIR then .ok (mkItem cwd .Directory path)
  else if type = S_IFIFO then .ok (mkItem cwd .FIFO path)
  else if type = S_IFREG then .ok (mkItem cwd .File path)
  else if type = S_IFSOCK then .ok (mkItem cwd .Socket path)
  else if type = S_IFLNK then .ok (mkItem cwd .SymbolicLink path)
  else .error .unknownItemType

/-- `FileSystem.getItem` (`FileSystem.ts:82`): `lstat` the path (the
oracle `fs` returns the entry's own mode bits, or `none` when the path
does not exist), mask with `S_IFMT`, and dispatch. -/
def FileSystem.getItem (cwd : String) (fs : String → Option Nat) (path : String) :
    Except Err FileSystemItem :=
  match fs path with
  | none => .error .notFound
  | some mode => LavaFile.getItem (mode &&& S_IFMT) path cwd

/-- `SymbolicLink.getItem` (`FileSystem.ts:684`): read the link target
(`readLinkRes` is the outcome of `promises.readlink`), resolve it
against the link's own path, and dispatch through
`FileSystem.getItem`. -/
def SymbolicLink.getItem (cwd : String) (fs : String → Option Nat)
    (readLinkRes : Except Err String) (it : FileSystemItem) : Except Err FileSystemItem :=
  match readLinkRes with
  | .error e => .error e
  | .ok target =>
    let path := NodePath.resolve cwd [it.path, target]
    FileSystem.getItem cwd fs path

/-- The open-file handle of `FileItemHandle.ts`: wraps a live
descriptor and remembers whether `close` already succeeded. -/
structure FileItemHandle where
  isClosed : Bool
  deriving DecidableEq, Repr

/-- `FileItemHandle.close`: a no-op once closed; otherwise forwards to
`fd.close()` (outcome `osClose`) and records the closed state only when
that call succeeds. -/
def FileItemHandle.close (h : FileItemHandle) (osClose : Except Err Unit) :
    FileItemHandle × Except Err Unit × List Effect :=
  if h.isClosed = true then (h, .ok (), [])
  else
    match osClose with
    | .error e => (h, .error e, [.osCloseFd])
    | .ok _ => ({ isClosed := true }, .ok (), [.osCloseFd])

/-- The open-directory handle of `FileSystem.ts:694`. -/
structure DirectoryItemHandle where
  isClosed : Bool
  deriving DecidableEq, Repr

/-- `DirectoryItemHandle.close` (`FileSystem.ts:719`): a no-op once
closed; otherwise forwards to `dir.close()` and records the closed
state only when that call succeeds. -/
def DirectoryItemHandle.close (h : DirectoryItemHandle) (osClose : Except Err Unit) :
    DirectoryItemHandle × Except Err Unit × List Effect :=
  if h.isClosed = true then (h, .ok (), [])
  else
    match osClose with
    | .error e => (h, .error e, [.osCloseDir])
    | .ok _ => ({ isClosed := true }, .ok (), [.osCloseDir])

/-- `FileLikeItem.open` (`FileSystem.ts:390`): open the descriptor, run
the callback, and close the handle in a `finally`.  The callback is
abstracted as its outcome, the trace of OS calls it issued, and the
handle state it left behind (it may itself have closed the handle).  A
rejection of the `finally`'s `close` replaces the callback's outcome,
as in JavaScript. -/
def FileLikeItem.open (it : FileSystemItem) (osOpen : Except Err Unit)
    (callback : Except Err Unit × List Effect × FileItemHandle)
    (osClose : Except Err Unit) : Except Err Unit × List Effect :=
  match osOpen with
  | .error e => (.error e, [.osOpenFd it.path])
  | .ok _ =>
    let (cbRes, cbTr, h') := callback
    let (_, clRes, clTr) := FileItemHandle.close h' osClose
    match clRes with
    | .error e => (.error e, .osOpenFd it.path :: (cbTr ++ clTr))
    | .ok _ => (cbRes, .osOpenFd it.path :: (cbTr ++ clTr))

/-- `Directory.open` (`FileSystem.ts:583`): open the directory, run the
callback, and in a `finally` close the handle inside a
`try { ... } catch { }`, so the close's own rejection is discarded and
the callback's outcome is always what `open` settles with. -/
def Directory.open (it : FileSystemItem) (osOpen : Except Err Unit)
    (callback : Except Err Unit × List Effect × DirectoryItemHandle)
    (osClose : Except Err Unit) : Except Err Unit × List Effect :=
  match osOpen with
  | .error e => (.error e, [.osOpenDir it.path])
  | .ok _ =>
    let (cbRes, cbTr, h') := callback
    let (_, _, clTr) := DirectoryItemHandle.close h' osClose
    (cbRes, .osOpenDir it.path :: (cbTr ++ clTr))

/-- A plain path segment: nonempty, not `.` or `..`, and free of the
separator.  The segments of a fully resolved path are plain. -/
def PlainSeg (s : List Char) : Prop :=
  s ≠ [] ∧ s ≠ ['.'] ∧ s ≠ ['.', '.'] ∧ '/' ∉ s

instance (s : List Char) : Decidable (PlainSeg s) := by
  unfold PlainSeg; infer_instance

/-- A fully resolved absolute path: a separator followed by plain
segments joined with the separator.  Every output of `pathResolve`
with an absolute `cwd` has this shape. -/
def GoodAbs (p : List Char) : Prop :=
  ∃ segs, (∀ s ∈ segs, PlainSeg s) ∧ p = '/' :: joinSegs segs

theorem toList_mk (l : List Char) : (String.mk l).toList = l := rfl

theorem zipAll_eq_true_iff {α : Type} [DecidableEq α] :
    ∀ ps ss : List α,
      ((if ss.length < ps.length then (false : Bool)
        else (ps.zip ss).all fun pr => decide (pr.1 = pr.2)) = true)
        ↔ ∃ t, ss = ps ++ t := by
  intro ps
  induction ps with
  | nil =>
    intro ss
    simp
  | cons p ps ih =>
    intro ss
    cases ss with
    | nil => simp
    | cons s ss' =>
      have hcond : ((s :: ss').length < (p :: ps).length) ↔ (ss'.length < ps.length) := by
        simp [Nat.succ_lt_succ_iff]
      by_cases hlen : ss'.length < ps.length
      · rw [if_pos (hcond.mpr hlen)]
        simp only [Bool.false_eq_true, false_iff]
        rintro ⟨t, ht⟩
        have hlength := congrArg List.length ht
        simp [List.length_append] at hlength
        omega
      · rw [if_neg (fun hh => hlen (hcond.mp hh))]
        rw [List.zip_cons_cons, List.all_cons, Bool.and_eq_true, decide_eq_true_eq]
        have hih := ih ss'
        rw [if_neg hlen] at hih
        rw [hih]
        constructor
        · rintro ⟨h1, t, ht⟩
          refine ⟨t, ?_⟩
          have hps : p = s := h1
          rw [List.cons_append, ← hps, ht]
        · rintro ⟨t, ht⟩
          rw [List.cons_append] at ht
          injection ht with h1 h2
          exact ⟨h1.symm, t, h2⟩

theorem isSub_eq_true_iff (p s : String) :
    Directory.isSub p s = true ↔ ∃ t, splitSegs s.toList = splitSegs p.toList ++ t :=
  zipAll_eq_true_iff (splitSegs p.toList) (splitSegs s.toList)

/-- Claim C1: for a `Directory` entry, `moveTo` and `copy` with a
destination that resolves to the directory's own path or to a path
nested under it (the source's `split(sep)` segment list is a prefix of
the destination's) fail with `CirculateError` before any filesystem
mutation: no OS call is issued (the effect trace is empty, so in
particular no rename happens and no destination directory is created)
and the entry's stored path is unchanged. -/
theorem claim_C1 (cwd dest : String) (it : FileSystemItem) (baseCwd : Bool)
    (osRen : String → String → Except Err Unit) (osMk : String → Except Err Unit)
    (children : String → Except Err Unit × List Effect)
    (h : ∃ t, splitSegs (Directory.resolveDest cwd it.path dest baseCwd).toList
        = splitSegs it.path.toList ++ t) :
    Directory.moveTo cwd it dest baseCwd osRen = (it, .error .circulate, []) ∧
    Directory.copy cwd it dest baseCwd osMk children = (.error .circulate, []) := by
  have hsub : Directory.isSub it.path (Directory.resolveDest cwd it.path dest baseCwd) = true :=
    (isSub_eq_true_iff _ _).mpr h
  constructor
  · simp [Directory.moveTo, hsub]
  · simp [Directory.copy, hsub]

theorem claim_C1_witness :
    (∃ t, splitSegs (Directory.resolveDest "/w" "/p/d" "d/x" false).toList
        = splitSegs ("/p/d" : String).toList ++ t) ∧
    Directory.moveTo "/w" { type := .Directory, path := "/p/d" } "d/x" false
        (fun _ _ => .ok ())
      = ({ type := .Directory, path := "/p/d" }, .error .circulate, []) ∧
    Directory.copy "/w" { type := .Directory, path := "/p/d" } "d/x" false
        (fun _ => .ok ()) (fun _ => (.ok (), [])) = (.error .circulate, []) := by
  have h : ∃ t, splitSegs (Directory.resolveDest "/w" "/p/d" "d/x" false).toList
      = splitSegs ("/p/d" : String).toList ++ t := ⟨[['x']], by decide⟩
  refine ⟨h, ?_, ?_⟩
  · exact (claim_C1 "/w" "d/x" { type := .Directory, path := "/p/d" } false
      (fun _ _ => .ok ()) (fun _ => .ok ()) (fun _ => (.ok (), [])) h).1
  · exact (claim_C1 "/w" "d/x" { type := .Directory, path := "/p/d" } false
      (fun _ _ => .ok ()) (fun _ => .ok ()) (fun _ => (.ok (), [])) h).2

/-- Claim C2 is false as stated: `rename` tests the NORMALIZED new name
for a separator, so `"x/.."` (which contains a separator) normalizes to
`"."` and is accepted — an OS rename is issued instead of
`NotNameError`; and the separator-free name `".."` is accepted but
moves the entry out of its directory instead of changing only the final
segment. -/
theorem claim_C2_cex :
    (FileSystemItem.rename "/w" { type := .File, path := "/a/b/c" } "x/.."
        (fun _ _ => .ok ())
      = ({ type := .File, path := "/a/b" }, .ok (), [.osRename "/a/b/c" "/a/b"])) ∧
    (FileSystemItem.rename "/w" { type := .File, path := "/a/b/c" } ".."
        (fun _ _ => .ok ())
      = ({ type := .File, path := "/a" }, .ok (), [.osRename "/a/b/c" "/a"])) ∧
    NodePath.dirname "/a" ≠ NodePath.dirname "/a/b/c" := by
  refine ⟨by decide, by decide, by decide⟩

/-- Claim C3: the type-dispatch function `getItem` maps each of the
seven masked mode bit patterns to the entry variant whose type tag is
the corresponding `ItemType`, and any other bit pattern to the
`UnknownItemType` error. -/
theorem claim_C3 (n : Nat) (path cwd : String) :
    (n = S_IFBLK → (getItem n path cwd).map FileSystemItem.type = .ok .BlockDevice) ∧
    (n = S_IFCHR → (getItem n path cwd).map FileSystemItem.type = .ok .CharacterDevice) ∧
    (n = S_IFDIR → (getItem n path cwd).map FileSystemItem.type = .ok .Directory) ∧
    (n = S_IFIFO → (getItem n path cwd).map FileSystemItem.type = .ok .FIFO) ∧
    (n = S_IFREG → (getItem n path cwd).map FileSystemItem.type = .ok .File) ∧
    (n = S_IFSOCK → (getItem n path cwd).map FileSystemItem.type = .ok .Socket) ∧
    (n = S_IFLNK → (getItem n path cwd).map FileSystemItem.type = .ok .SymbolicLink) ∧
    (n ≠ S_IFBLK → n ≠ S_IFCHR → n ≠ S_IFDIR → n ≠ S_IFIFO → n ≠ S_IFREG →
      n ≠ S_IFSOCK → n ≠ S_IFLNK → getItem n path cwd = .error .unknownItemType) :=
  ⟨fun h => by subst h; rfl, fun h => by subst h; rfl, fun h => by subst h; rfl,
   fun h => by subst h; rfl, fun h => by subst h; rfl, fun h => by subst h; rfl,
   fun h => by subst h; rfl,
   fun h1 h2 h3 h4 h5 h6 h7 => by simp [getItem, h1, h2, h3, h4, h5, h6, h7]⟩

theorem claim_C3_witness :
    (getItem 24576 "x" "/w").map FileSystemItem.type = .ok .BlockDevice ∧
    getItem 12345 "x" "/w" = .error .unknownItemType := by
  have h := claim_C3 12345 "x" "/w"
  exact ⟨(claim_C3 24576 "x" "/w").1 rfl,
    h.2.2.2.2.2.2.2 (by decide) (by decide) (by decide) (by decide) (by decide)
      (by decide) (by decide)⟩

/-- Claim C4: `FileSystem.getItem` classifies from the entry's own
(`lstat`) mode bits masked with `S_IFMT`: when the path names a
symbolic link the returned entry carries the `SymbolicLink` tag (not
the tag of the link's target), and when the path does not exist the
not-found error propagates. -/
theorem claim_C4 (cwd path : String) (fs : String → Option Nat) :
    (∀ m, fs path = some m → m &&& S_IFMT = S_IFLNK →
      (FileSystem.getItem cwd fs path).map FileSystemItem.type = .ok .SymbolicLink) ∧
    (fs path = none → FileSystem.getItem cwd fs path = .error .notFound) := by
  constructor
  · intro m hm hmask
    have hstep : FileSystem.getItem cwd fs path = getItem (m &&& S_IFMT) path cwd := by
      unfold FileSystem.getItem
      rw [hm]
    rw [hstep, hmask]
    rfl
  · intro hn
    unfold FileSystem.getItem
    rw [hn]

theorem claim_C4_witness :
    (FileSystem.getItem "/w" (fun p => if p = "/l" then some 41471 else none) "/l").map
        FileSystemItem.type = .ok .SymbolicLink ∧
    FileSystem.getItem "/w" (fun p => if p = "/l" then some 41471 else none) "/x"
      = .error .notFound := by
  refine ⟨(claim_C4 "/w" "/l" _).1 41471 (by decide) (by decide), ?_⟩
  exact (claim_C4 "/w" "/x" (fun p => if p = "/l" then some 41471 else none)).2 (by decide)

/-- Claim C5 fails on the source: `FileLikeItem.moveTo` with
`baseCwd = true` has no resolution branch, so a relative argument is
stored verbatim and the entry's stored path is no longer absolute
(evaluated here at a `File` entry at `/a/b` moved to `"c"` with
`baseCwd = true` and a succeeding OS rename). -/
theorem claim_C5_eval :
    (FileLikeItem.moveTo "/w" { type := .File, path := "/a/b" } "c" true
        (fun _ _ => .ok ())).1.path = "c" ∧
    isAbsChars ((FileLikeItem.moveTo "/w" { type := .File, path := "/a/b" } "c" true
        (fun _ _ => .ok ())).1.path).toList = false := by
  refine ⟨by decide, by decide⟩

/-- Claim C8: for both `FileItemHandle` and `DirectoryItemHandle`,
`close` is idempotent: after a first `close` that succeeded, a later
`close` returns without error, issues no further OS close call, and
leaves the handle state unchanged. -/
theorem claim_C8 (h : FileItemHandle) (g : DirectoryItemHandle)
    (o1 o2 p1 p2 : Except Err Unit) :
    ((FileItemHandle.close h o1).2.1 = .ok () →
      FileItemHandle.close (FileItemHandle.close h o1).1 o2
        = ((FileItemHandle.close h o1).1, .ok (), [])) ∧
    ((DirectoryItemHandle.close g p1).2.1 = .ok () →
      DirectoryItemHandle.close (DirectoryItemHandle.close g p1).1 p2
        = ((DirectoryItemHandle.close g p1).1, .ok (), [])) := by
  constructor
  · intro hok
    cases h with
    | mk hc =>
      cases hc
      · cases o1
        · exfalso
          simp [FileItemHandle.close] at hok
        · simp [FileItemHandle.close]
      · simp [FileItemHandle.close]
  · intro hok
    cases g with
    | mk hc =>
      cases hc
      · cases p1
        · exfalso
          simp [DirectoryItemHandle.close] at hok
        · simp [DirectoryItemHandle.close]
      · simp [DirectoryItemHandle.close]

theorem claim_C8_witness :
    ((FileItemHandle.close ⟨false⟩ (.ok ())).2.1 = .ok ()) ∧
    FileItemHandle.close (FileItemHandle.close ⟨false⟩ (.ok ())).1 (.ok ())
      = ((FileItemHandle.close ⟨false⟩ (.ok ())).1, .ok (), []) ∧
    ((DirectoryItemHandle.close ⟨false⟩ (.ok ())).2.1 = .ok ()) ∧
    DirectoryItemHandle.close (DirectoryItemHandle.close ⟨false⟩ (.ok ())).1 (.ok ())
      = ((DirectoryItemHandle.close ⟨false⟩ (.ok ())).1, .ok (), []) :=
  ⟨rfl,
   (claim_C8 ⟨false⟩ ⟨false⟩ (.ok ()) (.ok ()) (.ok ()) (.ok ())).1 rfl,
   rfl,
   (claim_C8 ⟨false⟩ ⟨false⟩ (.ok ()) (.ok ()) (.ok ()) (.ok ())).2 rfl⟩

/-- Claim C9: `FileLikeItem.open` closes the opened handle on every
exit path: whatever outcome the callback had, the `finally` issues the
OS close (exactly once when the callback left the handle open, not a
second time when the callback already closed it) before `open`
returns, and when the OS close succeeds the callback's outcome —
including an error — is what `open` settles with. -/
theorem claim_C9 (it : FileSystemItem) (cbRes : Except Err Unit) (cbTr : List Effect)
    (h' : FileItemHandle) (osClose : Except Err Unit) :
    (osClose = .ok () →
      (FileLikeItem.open it (.ok ()) (cbRes, cbTr, h') osClose).1 = cbRes) ∧
    (h'.isClosed = false →
      (FileLikeItem.open it (.ok ()) (cbRes, cbTr, h') osClose).2
        = .osOpenFd it.path :: cbTr ++ [.osCloseFd]) ∧
    (h'.isClosed = true →
      (FileLikeItem.open it (.ok ()) (cbRes, cbTr, h') osClose).2
        = .osOpenFd it.path :: cbTr) := by
  cases h' with
  | mk hc =>
    cases hc <;> cases osClose <;>
      simp [FileLikeItem.open, FileItemHandle.close]

theorem claim_C9_witness :
    (FileLikeItem.open { type := .File, path := "/f" } (.ok ())
        (.error (.osErr 7), [], ⟨false⟩) (.ok ())).1 = .error (.osErr 7) ∧
    (FileLikeItem.open { type := .File, path := "/f" } (.ok ())
        (.error (.osErr 7), [], ⟨false⟩) (.ok ())).2
      = .osOpenFd "/f" :: [] ++ [.osCloseFd] :=
  ⟨(claim_C9 { type := .File, path := "/f" } (.error (.osErr 7)) [] ⟨false⟩ (.ok ())).1 rfl,
   (claim_C9 { type := .File, path := "/f" } (.error (.osErr 7)) [] ⟨false⟩ (.ok ())).2.1 rfl⟩

/-- Claim C10 is false as stated: in `Directory.open` the cleanup close
sits in an unconditional `try { ... } catch { }`, so when the callback
succeeds and the close fails, `open` still succeeds — the close failure
is swallowed, not propagated to the caller. -/
theorem claim_C10_cex :
    Directory.open { type := .Directory, path := "/d" } (.ok ())
        (.ok (), [], ⟨false⟩) (.error (.osErr 5))
      = (.ok (), [.osOpenDir "/d", .osCloseDir]) := rfl

/-- Claim C10 amended: in `Directory.open` an error raised by the
cleanup close is always suppressed — both while unwinding from a
callback error, where the callback's error propagates unmasked, and
when the callback succeeded, where `open` succeeds despite the close
failure; the cleanup close is still issued whenever the callback left
the handle open. -/
theorem claim_C10 (it : FileSystemItem) (cbRes : Except Err Unit) (cbTr : List Effect)
    (hd : DirectoryItemHandle) (osClose : Except Err Unit) :
    (Directory.open it (.ok ()) (cbRes, cbTr, hd) osClose).1 = cbRes ∧
    (hd.isClosed = false →
      (Directory.open it (.ok ()) (cbRes, cbTr, hd) osClose).2
        = .osOpenDir it.path :: cbTr ++ [.osCloseDir]) := by
  cases hd with
  | mk hc =>
    cases hc <;> cases osClose <;>
      simp [Directory.open, DirectoryItemHandle.close]

theorem claim_C10_witness :
    ((Directory.open { type := .Directory, path := "/d" } (.ok ())
        (.error (.osErr 9), [], ⟨false⟩) (.error (.osErr 5))).1 = .error (.osErr 9)) ∧
    (Directory.open { type := .Directory, path := "/d" } (.ok ())
        (.error (.osErr 9), [], ⟨false⟩) (.error (.osErr 5))).2
      = .osOpenDir "/d" :: [] ++ [.osCloseDir] :=
  ⟨(claim_C10 { type := .Directory, path := "/d" } (.error (.osErr 9)) [] ⟨false⟩
      (.error (.osErr 5))).1,
   (claim_C10 { type := .Directory, path := "/d" } (.error (.osErr 9)) [] ⟨false⟩
      (.error (.osErr 5))).2 rfl⟩

theorem splitSegs_ne_nil (cs : List Char) : splitSegs cs ≠ [] := by
  cases cs with
  | nil => simp [splitSegs]
  | cons c rest =>
    cases h : splitSegs rest with
    | nil => simp [splitSegs, h]
    | cons s ss => by_cases hc : c = '/' <;> simp [splitSegs, h, hc]

theorem splitSegs_sep_cons (cs : List Char) : splitSegs ('/' :: cs) = [] :: splitSegs cs := by
  cases h : splitSegs cs with
  | nil => exact absurd h (splitSegs_ne_nil cs)
  | cons s ss => simp [splitSegs, h]

theorem splitSegs_append_sep (a b : List Char) :
    splitSegs (a ++ '/' :: b) = splitSegs a ++ splitSegs b := by
  induction a with
  | nil =>
    rw [List.nil_append, splitSegs_sep_cons]
    rfl
  | cons c a' ih =>
    cases h : splitSegs a' with
    | nil => exact absurd h (splitSegs_ne_nil a')
    | cons s ss =>
      by_cases hc : c = '/'
      · subst hc
        rw [List.cons_append, splitSegs_sep_cons, splitSegs_sep_cons, ih]
        simp
      · have hne : splitSegs (a' ++ '/' :: b) = s :: (ss ++ splitSegs b) := by
          rw [ih, h]
          simp
        rw [List.cons_append]
        simp [splitSegs, hne, h, hc]

theorem splitSegs_no_sep (cs : List Char) (h : '/' ∉ cs) : splitSegs cs = [cs] := by
  induction cs with
  | nil => simp [splitSegs]
  | cons c rest ih =>
    have hc : c ≠ '/' := fun hh => h (by simp [hh])
    have hrest : '/' ∉ rest := fun hh => h (List.mem_cons_of_mem _ hh)
    simp [splitSegs, ih hrest, hc]

theorem mem_splitSegs_no_sep (cs : List Char) : ∀ s ∈ splitSegs cs, '/' ∉ s := by
  induction cs with
  | nil =>
    intro s hs
    simp [splitSegs] at hs
    simp [hs]
  | cons c rest ih =>
    intro s hs
    cases h : splitSegs rest with
    | nil => exact absurd h (splitSegs_ne_nil rest)
    | cons s0 ss =>
      by_cases hc : c = '/'
      · subst hc
        rw [splitSegs_sep_cons] at hs
        rcases List.mem_cons.mp hs with rfl | hs'
        · simp
        · exact ih s hs'
      · have heq : splitSegs (c :: rest) = (c :: s0) :: ss := by simp [splitSegs, h, hc]
        rw [heq] at hs
        rcases List.mem_cons.mp hs with rfl | hs'
        · intro hmem
          rcases List.mem_cons.mp hmem with h1 | h1
          · exact hc h1.symm
          · have hs0 : s0 ∈ splitSegs rest := by rw [h]; exact List.mem_cons_self _ _
            exact ih s0 hs0 h1
        · have hss : s ∈ splitSegs rest := by rw [h]; exact List.mem_cons_of_mem _ hs'
          exact ih s hss

theorem joinSegs_cons (s : List Char) (rest : List (List Char)) (h : rest ≠ []) :
    joinSegs (s :: rest) = s ++ '/' :: joinSegs rest := by
  cases rest with
  | nil => exact absurd rfl h
  | cons t r => rfl

theorem joinSegs_concat (a : List (List Char)) (x : List Char) (h : a ≠ []) :
    joinSegs (a ++ [x]) = joinSegs a ++ '/' :: x := by
  induction a with
  | nil => exact absurd rfl h
  | cons s a' ih =>
    cases a' with
    | nil => rfl
    | cons t r =>
      rw [List.cons_append, joinSegs_cons s ((t :: r) ++ [x]) (by simp),
          joinSegs_cons s (t :: r) (by simp), ih (by simp)]
      simp

theorem joinSegs_ne_nil (a : List (List Char)) (ha : a ≠ []) (h : ∀ s ∈ a, s ≠ []) :
    joinSegs a ≠ [] := by
  cases a with
  | nil => exact absurd rfl ha
  | cons s r =>
    cases r with
    | nil => exact h s (by simp)
    | cons t r' =>
      rw [joinSegs_cons s (t :: r') (by simp)]
      intro hh
      rcases List.append_eq_nil.mp hh with ⟨_, h2⟩
      exact List.cons_ne_nil _ _ h2

theorem splitSegs_joinSegs (a : List (List Char)) (ha : a ≠ [])
    (h : ∀ s ∈ a, '/' ∉ s) : splitSegs (joinSegs a) = a := by
  induction a with
  | nil => exact absurd rfl ha
  | cons s r ih =>
    cases r with
    | nil => exact splitSegs_no_sep s (h s (by simp))
    | cons t r' =>
      rw [joinSegs_cons s (t :: r') (by simp), splitSegs_append_sep,
          splitSegs_no_sep s (h s (by simp)), ih (by simp) (fun x hx => h x (by simp [hx]))]
      rfl

theorem dropWhileAllTrue {α : Type} (p : α → Bool) (a l : List α)
    (h : ∀ x ∈ a, p x = true) : List.dropWhile p (a ++ l) = List.dropWhile p l := by
  induction a with
  | nil => rfl
  | cons x a' ih =>
    rw [List.cons_append, List.dropWhile_cons, if_pos (h x (by simp))]
    exact ih (fun y hy => h y (by simp [hy]))

theorem takeWhileAllTrue {α : Type} (p : α → Bool) (a l : List α)
    (h : ∀ x ∈ a, p x = true) : List.takeWhile p (a ++ l) = a ++ List.takeWhile p l := by
  induction a with
  | nil => rfl
  | cons x a' ih =>
    rw [List.cons_append, List.takeWhile_cons, if_pos (h x (by simp))]
    rw [ih (fun y hy => h y (by simp [hy])), List.cons_append]

theorem mem_dropLast_mem {α : Type} : ∀ (l : List α) (x : α), x ∈ l.dropLast → x ∈ l := by
  intro l
  induction l with
  | nil =>
    intro x hx
    cases hx
  | cons a r ih =>
    intro x hx
    cases r with
    | nil => cases hx
    | cons b r' =>
      rw [show (a :: b :: r').dropLast = a :: (b :: r').dropLast from rfl] at hx
      rcases List.mem_cons.mp hx with rfl | hx'
      · exact List.mem_cons_self _ _
      · exact List.mem_cons_of_mem _ (ih x hx')

theorem normSegs_pass (allow : Bool) :
    ∀ (l acc : List (List Char)), (∀ s ∈ l, s = [] ∨ PlainSeg s) →
      normSegs allow acc l = acc.reverse ++ l.filter (fun s => decide (s ≠ [])) := by
  intro l
  induction l with
  | nil =>
    intro acc _
    simp [normSegs]
  | cons s rest ih =>
    intro acc h
    rcases h s (by simp) with hs | hs
    · subst hs
      rw [show normSegs allow acc ([] :: rest) = normSegs allow acc rest from by
        simp [normSegs]]
      rw [ih acc (fun x hx => h x (by simp [hx]))]
      simp
    · obtain ⟨h1, h2, h3, _⟩ := hs
      have hguard : ¬ (s = [] ∨ s = ['.']) := by
        rintro (hh | hh)
        · exact h1 hh
        · exact h2 hh
      rw [show normSegs allow acc (s :: rest) = normSegs allow (s :: acc) rest from by
        simp [normSegs, hguard, h3]]
      rw [ih (s :: acc) (fun x hx => h x (by simp [hx]))]
      simp [List.filter_cons, h1]

theorem normSegs_plain :
    ∀ (l acc : List (List Char)), (∀ s ∈ l, '/' ∉ s) → (∀ s ∈ acc, PlainSeg s) →
      ∀ s ∈ normSegs false acc l, PlainSeg s := by
  intro l
  induction l with
  | nil =>
    intro acc _ hacc s hs
    rw [show normSegs false acc [] = acc.reverse from rfl] at hs
    exact hacc s (List.mem_reverse.mp hs)
  | cons x rest ih =>
    intro acc hl hacc
    by_cases hg : x = [] ∨ x = ['.']
    · rw [show normSegs false acc (x :: rest) = normSegs false acc rest from by
        simp [normSegs, hg]]
      exact ih acc (fun s hs => hl s (by simp [hs])) hacc
    · by_cases hdd : x = ['.', '.']
      · subst hdd
        cases acc with
        | nil =>
          rw [show normSegs false [] (['.', '.'] :: rest)
              = normSegs false [] rest from by simp [normSegs]]
          refine ih [] (fun s hs => hl s (by simp [hs])) ?_
          intro s hs
          cases hs
        | cons t tl =>
          by_cases ht : t = ['.', '.']
          · exact absurd ht ((hacc t (by simp)).2.2.1)
          · rw [show normSegs false (t :: tl) (['.', '.'] :: rest)
                = normSegs false tl rest from by simp [normSegs, ht]]
            exact ih tl (fun s hs => hl s (by simp [hs]))
              (fun s hs => hacc s (by simp [hs]))
      · rw [show normSegs false acc (x :: rest) = normSegs false (x :: acc) rest from by
          simp [normSegs, hg, hdd]]
        refine ih (x :: acc) (fun s hs => hl s (by simp [hs])) ?_
        intro s hs
        rcases List.mem_cons.mp hs with rfl | hs'
        · refine ⟨fun hh => hg (Or.inl hh), fun hh => hg (Or.inr hh), hdd, hl s (by simp)⟩
        · exact hacc s hs'

theorem resolveJoin_snd_of_abs (cwd : List Char) (args : List (List Char))
    (h : isAbsChars cwd = true) : (resolveJoin (cwd :: args)).2 = true := by
  have hcwd : cwd ≠ [] := by
    cases cwd with
    | nil => simp [isAbsChars] at h
    | cons c r => simp
  cases hr : resolveJoin args with
  | mk acc abs =>
    cases abs
    · simp [resolveJoin, hr, hcwd, h]
    · simp [resolveJoin, hr]

theorem resolveJoin_concat_abs (l : List (List Char)) (r : List Char)
    (h : isAbsChars r = true) : resolveJoin (l ++ [r]) = (r ++ ['/'], true) := by
  induction l with
  | nil =>
    have hr : r ≠ [] := by
      cases r with
      | nil => simp [isAbsChars] at h
      | cons c cr => simp
    simp [resolveJoin, hr, h]
  | cons p l' ih =>
    rw [List.cons_append]
    simp [resolveJoin, ih]

theorem pathResolve_goodAbs (cwd : List Char) (args : List (List Char))
    (h : isAbsChars cwd = true) : GoodAbs (pathResolve cwd args) := by
  cases hr : resolveJoin (cwd :: args) with
  | mk joined abs =>
    have habs : abs = true := by
      have hh := resolveJoin_snd_of_abs cwd args h
      rw [hr] at hh
      exact hh
    subst habs
    refine ⟨normSegs false [] (splitSegs joined), ?_, ?_⟩
    · refine normSegs_plain (splitSegs joined) [] (mem_splitSegs_no_sep joined) ?_
      intro s hs
      cases hs
    · simp [pathResolve, hr]

theorem isAbs_of_goodAbs (p : List Char) (h : GoodAbs p) : isAbsChars p = true := by
  obtain ⟨segs, _, rfl⟩ := h
  simp [isAbsChars]

theorem resolveJoin_cons_eq (p : List Char) (rest : List (List Char)) :
    resolveJoin (p :: rest)
      = (match resolveJoin rest with
         | (acc, true) => (acc, true)
         | (acc, false) =>
           if p = [] then (acc, false) else (p ++ '/' :: acc, isAbsChars p)) := by
  rw [resolveJoin]

theorem pathResolve_idem (cwd : List Char) (args : List (List Char)) (r : List Char)
    (h : GoodAbs r) : pathResolve cwd (args ++ [r]) = r := by
  obtain ⟨segs, hplain, rfl⟩ := h
  have hrj : resolveJoin (cwd :: (args ++ ['/' :: joinSegs segs]))
      = (('/' :: joinSegs segs) ++ ['/'], true) := by
    rw [show cwd :: (args ++ ['/' :: joinSegs segs])
        = (cwd :: args) ++ ['/' :: joinSegs segs] from by simp]
    exact resolveJoin_concat_abs (cwd :: args) ('/' :: joinSegs segs) (by simp [isAbsChars])
  cases segs with
  | nil =>
    simp only [joinSegs] at hrj ⊢
    simp [pathResolve, hrj, splitSegs_sep_cons, splitSegs, normSegs, joinSegs]
  | cons s0 rest0 =>
    have hplain' : ∀ s ∈ s0 :: rest0, PlainSeg s := hplain
    have hnosep : ∀ s ∈ s0 :: rest0, '/' ∉ s := fun s hs => (hplain' s hs).2.2.2
    have hjs : splitSegs (joinSegs (s0 :: rest0) ++ ['/']) = (s0 :: rest0) ++ [[]] := by
      rw [show joinSegs (s0 :: rest0) ++ ['/'] = joinSegs (s0 :: rest0) ++ '/' :: [] from rfl,
          splitSegs_append_sep, splitSegs_joinSegs _ (by simp) hnosep]
      rfl
    have hnorm : normSegs false [] ([] :: ((s0 :: rest0) ++ [[]])) = s0 :: rest0 := by
      rw [normSegs_pass false ([] :: ((s0 :: rest0) ++ [[]])) [] ?hmem]
      case hmem =>
        intro s hs
        rcases List.mem_cons.mp hs with rfl | hs'
        · exact Or.inl rfl
        · rcases List.mem_append.mp hs' with hs'' | hs''
          · exact Or.inr (hplain' s hs'')
          · simp at hs''
            exact Or.inl hs''
      rw [List.reverse_nil, List.nil_append]
      rw [List.filter_cons_of_neg (by simp), List.filter_append]
      rw [List.filter_eq_self.mpr (fun a ha => decide_eq_true ((hplain' a ha).1))]
      simp
    rw [show ('/' :: joinSegs (s0 :: rest0)) ++ ['/']
        = '/' :: (joinSegs (s0 :: rest0) ++ ['/']) from by simp] at hrj
    simp only [pathResolve, hrj, Bool.not_true]
    rw [splitSegs_sep_cons, hjs, hnorm]
    simp

theorem pathResolve_plain_concat (cwd : List Char) (segs : List (List Char)) (n : List Char)
    (hplain : ∀ s ∈ segs, PlainSeg s) (hn : PlainSeg n) :
    pathResolve cwd ['/' :: joinSegs segs, n] = '/' :: joinSegs (segs ++ [n]) := by
  have hnne : n ≠ [] := hn.1
  have hnabs : isAbsChars n = false := by
    cases n with
    | nil => exact absurd rfl hnne
    | cons c r =>
      have hc : c ≠ '/' := fun hh => hn.2.2.2 (by simp [hh])
      simp [isAbsChars, hc]
  have hrj : resolveJoin (cwd :: ['/' :: joinSegs segs, n])
      = ('/' :: (joinSegs segs ++ '/' :: (n ++ ['/'])), true) := by
    have h1 : resolveJoin ([n] : List (List Char)) = (n ++ ['/'], false) := by
      simp [resolveJoin, hnne, hnabs]
    have h2 : resolveJoin ['/' :: joinSegs segs, n]
        = ('/' :: (joinSegs segs ++ '/' :: (n ++ ['/'])), true) := by
      rw [show (['/' :: joinSegs segs, n] : List (List Char))
          = ('/' :: joinSegs segs) :: [n] from rfl]
      rw [resolveJoin_cons_eq, h1]
      simp [isAbsChars]
    rw [resolveJoin_cons_eq, h2]
  cases segs with
  | nil =>
    simp only [joinSegs] at hrj ⊢
    obtain ⟨c, restn, rfl⟩ : ∃ c restn, n = c :: restn := by
      cases n with
      | nil => exact absurd rfl hnne
      | cons c r => exact ⟨c, r, rfl⟩
    have hc : c ≠ '/' := fun hh => hn.2.2.2 (by simp [hh])
    have hnns : '/' ∉ c :: restn := hn.2.2.2
    simp only [pathResolve, hrj, Bool.not_true]
    rw [show ('/' : Char) :: ([] ++ '/' :: (c :: restn ++ ['/']))
        = '/' :: '/' :: ((c :: restn) ++ '/' :: []) from by simp]
    rw [splitSegs_sep_cons, splitSegs_sep_cons, splitSegs_append_sep,
        splitSegs_no_sep _ hnns]
    rw [show splitSegs [] = [[]] from rfl]
    rw [normSegs_pass false ([] :: [] :: ([c :: restn] ++ [[]])) [] ?hmem2]
    case hmem2 =>
      intro s hs
      rcases List.mem_cons.mp hs with rfl | hs'
      · exact Or.inl rfl
      · rcases List.mem_cons.mp hs' with rfl | hs''
        · exact Or.inl rfl
        · rcases List.mem_append.mp hs'' with h3 | h3
          · simp at h3
            subst h3
            exact Or.inr hn
          · simp at h3
            exact Or.inl h3
    simp [List.filter_cons, List.filter_append, joinSegs]
  | cons s0 rest0 =>
    have hplain' : ∀ s ∈ s0 :: rest0, PlainSeg s := hplain
    have hnosep : ∀ s ∈ s0 :: rest0, '/' ∉ s := fun s hs => (hplain' s hs).2.2.2
    simp only [pathResolve, hrj, Bool.not_true]
    rw [splitSegs_sep_cons]
    rw [show joinSegs (s0 :: rest0) ++ '/' :: (n ++ ['/'])
        = joinSegs (s0 :: rest0) ++ '/' :: (n ++ '/' :: []) from by simp]
    rw [splitSegs_append_sep, splitSegs_joinSegs _ (by simp) hnosep,
        splitSegs_append_sep, splitSegs_no_sep _ hn.2.2.2]
    rw [show splitSegs [] = [[]] from rfl]
    rw [normSegs_pass false _ [] ?hmem3]
    case hmem3 =>
      intro s hs
      rcases List.mem_cons.mp hs with rfl | hs'
      · exact Or.inl rfl
      · rcases List.mem_append.mp hs' with h3 | h3
        · exact Or.inr (hplain' s h3)
        · rcases List.mem_append.mp h3 with h4 | h4
          · simp at h4
            subst h4
            exact Or.inr hn
          · simp at h4
            exact Or.inl h4
    rw [List.reverse_nil, List.nil_append]
    rw [List.filter_cons_of_neg (by simp), List.filter_append, List.filter_append]
    rw [List.filter_eq_self.mpr (fun a ha => decide_eq_true ((hplain' a ha).1))]
    rw [show List.filter (fun s => decide (s ≠ [])) [n] = [n] from by
      simp [List.filter_cons, hn.1]]
    rw [show List.filter (fun s => decide (s ≠ ([] : List Char))) [[]] = [] from by
      simp [List.filter_cons]]
    rw [List.append_nil]
    simp [joinSegs_concat (s0 :: rest0) n (by simp)]

theorem mk_toList (s : String) : String.mk s.toList = s := rfl

theorem reverse_slash_joinSegs (init : List (List Char)) (last : List Char)
    (hinit : init ≠ []) :
    ('/' :: joinSegs (init ++ [last])).reverse
      = last.reverse ++ '/' :: ((joinSegs init).reverse ++ ['/']) := by
  rw [joinSegs_concat init last hinit, List.reverse_cons, List.reverse_append,
      List.reverse_cons]
  simp [List.append_assoc]

theorem dropPhases_eq (last rest : List Char) (hne : last ≠ []) (hns : '/' ∉ last) :
    ((last.reverse ++ '/' :: rest).dropWhile (· == '/')).dropWhile (· != '/')
      = '/' :: rest := by
  obtain ⟨y, ys, hyr⟩ : ∃ y ys, last.reverse = y :: ys := by
    cases hr : last.reverse with
    | nil =>
      have hl : last = [] := by simpa using congrArg List.reverse hr
      exact absurd hl hne
    | cons y ys => exact ⟨y, ys, rfl⟩
  have hymem : y ∈ last := by
    rw [← List.mem_reverse, hyr]
    exact List.mem_cons_self _ _
  have hy : (y == '/') = false := by
    have hyne : y ≠ '/' := fun hh => hns (hh ▸ hymem)
    simp [hyne]
  have hall : ∀ x ∈ last.reverse, (x != '/') = true := by
    intro x hx
    have hxl : x ∈ last := List.mem_reverse.mp hx
    have hxne : x ≠ '/' := fun hh => hns (hh ▸ hxl)
    simp [hxne]
  rw [hyr, List.cons_append, List.dropWhile_cons, if_neg (by simp [hy])]
  rw [← List.cons_append, ← hyr, dropWhileAllTrue _ _ _ hall]
  rw [List.dropWhile_cons, if_neg (by simp)]

theorem takePhase_eq (last rest : List Char) (hne : last ≠ []) (hns : '/' ∉ last) :
    (((last.reverse ++ '/' :: rest).dropWhile (· == '/')).takeWhile (· != '/')).reverse
      = last := by
  obtain ⟨y, ys, hyr⟩ : ∃ y ys, last.reverse = y :: ys := by
    cases hr : last.reverse with
    | nil =>
      have hl : last = [] := by simpa using congrArg List.reverse hr
      exact absurd hl hne
    | cons y ys => exact ⟨y, ys, rfl⟩
  have hymem : y ∈ last := by
    rw [← List.mem_reverse, hyr]
    exact List.mem_cons_self _ _
  have hy : (y == '/') = false := by
    have hyne : y ≠ '/' := fun hh => hns (hh ▸ hymem)
    simp [hyne]
  have hall : ∀ x ∈ last.reverse, (x != '/') = true := by
    intro x hx
    have hxl : x ∈ last := List.mem_reverse.mp hx
    have hxne : x ≠ '/' := fun hh => hns (hh ▸ hxl)
    simp [hxne]
  rw [hyr, List.cons_append, List.dropWhile_cons, if_neg (by simp [hy])]
  rw [← List.cons_append, ← hyr, takeWhileAllTrue _ _ _ hall]
  rw [List.takeWhile_cons, if_neg (by simp)]
  simp

theorem dirname_goodAbs (segs : List (List Char)) (h : ∀ s ∈ segs, PlainSeg s) :
    dirnameChars ('/' :: joinSegs segs) = '/' :: joinSegs segs.dropLast := by
  rcases List.eq_nil_or_concat segs with rfl | ⟨init, last, rfl⟩
  · rfl
  · simp only [List.concat_eq_append] at h ⊢
    have hlast : PlainSeg last := h last (by simp)
    have hlastne : last ≠ [] := hlast.1
    have hlastns : '/' ∉ last := hlast.2.2.2
    by_cases hinit : init = []
    · subst hinit
      simp only [dirnameChars]
      rw [show ('/' :: joinSegs ([] ++ [last])).reverse = last.reverse ++ '/' :: [] from by
        simp [joinSegs]]
      rw [dropPhases_eq last [] hlastne hlastns]
      simp [isAbsChars, joinSegs]
    · have hinitp : ∀ s ∈ init, PlainSeg s := fun s hs => h s (by simp [hs])
      have hinitne : ∀ s ∈ init, s ≠ [] := fun s hs => (hinitp s hs).1
      have hjne : joinSegs init ≠ [] := joinSegs_ne_nil init hinit hinitne
      simp only [dirnameChars]
      rw [reverse_slash_joinSegs init last hinit]
      rw [dropPhases_eq last ((joinSegs init).reverse ++ ['/']) hlastne hlastns]
      have h2 : ¬(('/' :: ((joinSegs init).reverse ++ ['/'])).length ≤ 1) := by
        simp
      have h3 : ¬(isAbsChars ('/' :: joinSegs (init ++ [last])) = true ∧
          ('/' :: ((joinSegs init).reverse ++ ['/'])).length = 2) := by
        rintro ⟨_, hlen2⟩
        simp at hlen2
        exact hjne hlen2
      rw [if_neg (by simp), if_neg h2, if_neg h3]
      simp [List.dropLast_concat]

theorem basename_concat (init : List (List Char)) (last : List Char)
    (hlastne : last ≠ []) (hlastns : '/' ∉ last) :
    basenameChars ('/' :: joinSegs (init ++ [last])) = last := by
  by_cases hinit : init = []
  · subst hinit
    unfold basenameChars
    rw [show ('/' :: joinSegs ([] ++ [last])).reverse = last.reverse ++ '/' :: [] from by
      simp [joinSegs]]
    exact takePhase_eq last [] hlastne hlastns
  · unfold basenameChars
    rw [reverse_slash_joinSegs init last hinit]
    exact takePhase_eq last _ hlastne hlastns

theorem containsSep_normalize_of_isAbs (p : List Char) (h : isAbsChars p = true) :
    '/' ∈ normalizeChars p := by
  cases p with
  | nil => simp [isAbsChars] at h
  | cons c rest =>
    have hc : c = '/' := by simpa [isAbsChars] using h
    subst hc
    simp only [normalizeChars]
    split_ifs <;> simp_all [isAbsChars]

theorem normalize_plain (n : List Char) (h : PlainSeg n) : normalizeChars n = n := by
  obtain ⟨h1, h2, h3, h4⟩ := h
  obtain ⟨c, restn, rfl⟩ : ∃ c r, n = c :: r := by
    cases n with
    | nil => exact absurd rfl h1
    | cons c r => exact ⟨c, r, rfl⟩
  have hc : c ≠ '/' := fun hh => h4 (by simp [hh])
  have habs : isAbsChars (c :: restn) = false := by simp [isAbsChars, hc]
  have htr : isSepLast (c :: restn) = false := by
    unfold isSepLast
    cases hr : (c :: restn).reverse with
    | nil => simp [hr]
    | cons y ys =>
      have hymem : y ∈ c :: restn := by
        rw [← List.mem_reverse, hr]
        exact List.mem_cons_self _ _
      have hy : y ≠ '/' := fun hh => h4 (hh ▸ hymem)
      simp [hr, hy]
  have hsplit : splitSegs (c :: restn) = [c :: restn] := splitSegs_no_sep _ h4
  have hnorm : normSegs true [] [c :: restn] = [c :: restn] := by
    have hguard : ¬((c :: restn) = [] ∨ (c :: restn) = ['.']) := by
      rintro (hh | hh)
      · exact List.cons_ne_nil _ _ hh
      · exact h2 hh
    simp [normSegs, hguard, h3]
    exact fun hcdot hrn => h2 (by rw [hcdot, hrn])
  simp [normalizeChars, habs, htr, hsplit, hnorm, joinSegs]

theorem pathResolve_isAbs (cwd : List Char) (args : List (List Char))
    (h : isAbsChars cwd = true) : isAbsChars (pathResolve cwd args) = true :=
  isAbs_of_goodAbs _ (pathResolve_goodAbs cwd args h)

/-- Claim C6: for every `SymbolicLink` entry and every target, `moveTo`
with `baseCwd = false` (the default) always fails with `NotNameError`,
issues no OS rename, and leaves the stored path unchanged: the resolved
target is an absolute path, which always contains a separator, so the
delegated `rename`'s check rejects it (stated for an absolute working
directory, as `process.cwd()` always is). -/
theorem claim_C6 (cwd newPath : String) (it : FileSystemItem)
    (osRen : String → String → Except Err Unit)
    (h : isAbsChars cwd.toList = true) :
    SymbolicLink.moveTo cwd it newPath false osRen = (it, .error .notName, []) := by
  have habs : isAbsChars ((NodePath.resolve cwd
      [NodePath.dirname it.path, newPath]).toList) = true :=
    pathResolve_isAbs cwd.toList _ h
  have hcontains : containsSepStr (NodePath.normalize
      (NodePath.resolve cwd [NodePath.dirname it.path, newPath])) = true :=
    decide_eq_true (containsSep_normalize_of_isAbs _ habs)
  simp [SymbolicLink.moveTo, FileSystemItem.rename, hcontains]

theorem claim_C6_witness :
    isAbsChars ("/w" : String).toList = true ∧
    SymbolicLink.moveTo "/w" { type := .SymbolicLink, path := "/l" } "t" false
        (fun _ _ => .ok ())
      = ({ type := .SymbolicLink, path := "/l" }, .error .notName, []) :=
  ⟨by decide,
   claim_C6 "/w" "t" { type := .SymbolicLink, path := "/l" } (fun _ _ => .ok ()) (by decide)⟩

/-- Claim C7: for a `SymbolicLink` entry whose link target names a
regular file, `SymbolicLink.getItem` (after `readLink` yields the
target) returns a `File` entry whose path is the target resolved to
absolute form — not the link's own path. -/
theorem claim_C7 (cwd target : String) (fs : String → Option Nat) (it : FileSystemItem)
    (mL mT : Nat) (hcwd : isAbsChars cwd.toList = true)
    (hL : fs it.path = some mL) (hLmask : mL &&& S_IFMT = S_IFLNK)
    (hT : fs (NodePath.resolve cwd [it.path, target]) = some mT)
    (hTmask : mT &&& S_IFMT = S_IFREG) :
    SymbolicLink.getItem cwd fs (.ok target) it
      = .ok { type := .File, path := NodePath.resolve cwd [it.path, target] } ∧
    NodePath.resolve cwd [it.path, target] ≠ it.path := by
  have hidem : NodePath.resolve cwd [cwd, NodePath.resolve cwd [it.path, target]]
      = NodePath.resolve cwd [it.path, target] := by
    have hg : GoodAbs ((NodePath.resolve cwd [it.path, target]).toList) :=
      pathResolve_goodAbs cwd.toList _ hcwd
    have hi := pathResolve_idem cwd.toList [cwd.toList]
      ((NodePath.resolve cwd [it.path, target]).toList) hg
    calc NodePath.resolve cwd [cwd, NodePath.resolve cwd [it.path, target]]
        = String.mk (pathResolve cwd.toList
            ([cwd.toList] ++ [(NodePath.resolve cwd [it.path, target]).toList])) := rfl
      _ = String.mk ((NodePath.resolve cwd [it.path, target]).toList) := by rw [hi]
      _ = NodePath.resolve cwd [it.path, target] := mk_toList _
  constructor
  · show FileSystem.getItem cwd fs (NodePath.resolve cwd [it.path, target]) = _
    unfold FileSystem.getItem
    rw [hT]
    show getItem (mT &&& S_IFMT) (NodePath.resolve cwd [it.path, target]) cwd = _
    rw [hTmask]
    rw [show getItem S_IFREG (NodePath.resolve cwd [it.path, target]) cwd
        = .ok (mkItem cwd .File (NodePath.resolve cwd [it.path, target])) from rfl]
    unfold mkItem
    rw [hidem]
  · intro heq
    rw [heq, hL] at hT
    injection hT with hml
    rw [← hml] at hTmask
    rw [hLmask] at hTmask
    exact absurd hTmask (by decide)

theorem claim_C7_witness :
    NodePath.resolve "/w" ["/l", "/t"] = "/t" ∧
    SymbolicLink.getItem "/w"
        (fun p => if p = "/l" then some 41471 else if p = "/t" then some 33188 else none)
        (.ok "/t") { type := .SymbolicLink, path := "/l" }
      = .ok { type := .File, path := NodePath.resolve "/w" ["/l", "/t"] } ∧
    NodePath.resolve "/w" ["/l", "/t"] ≠ ("/l" : String) := by
  have happ := claim_C7 "/w" "/t"
      (fun p => if p = "/l" then some 41471 else if p = "/t" then some 33188 else none)
      { type := .SymbolicLink, path := "/l" } 41471 33188
      (by decide) (by decide) (by decide) (by decide) (by decide)
  exact ⟨by decide, happ.1, happ.2⟩

/-- Claim C2 amended: `rename` rejects exactly the new names whose
NORMALIZED form contains a separator — those fail with `NotNameError`,
no OS rename is issued, and the stored path is unchanged; and for a
plain new name (separator-free, and none of the special names `""`,
`"."`, `".."`, which survive normalization but escape the directory),
a succeeding rename changes only the final path segment: the new stored
path keeps the old path's `dirname` and has the new name as its
`basename`. -/
theorem claim_C2 (cwd newName : String) (it : FileSystemItem)
    (osRen : String → String → Except Err Unit) :
    (containsSepStr (NodePath.normalize newName) = true →
      FileSystemItem.rename cwd it newName osRen = (it, .error .notName, [])) ∧
    (∀ segs, (∀ s ∈ segs, PlainSeg s) → it.path.toList = '/' :: joinSegs segs →
      PlainSeg newName.toList →
      osRen it.path (NodePath.resolve cwd [NodePath.dirname it.path, newName]) = .ok () →
      FileSystemItem.rename cwd it newName osRen
        = ({ it with path := NodePath.resolve cwd [NodePath.dirname it.path, newName] },
            .ok (),
            [.osRename it.path (NodePath.resolve cwd [NodePath.dirname it.path, newName])]) ∧
      NodePath.dirname (NodePath.resolve cwd [NodePath.dirname it.path, newName])
        = NodePath.dirname it.path ∧
      NodePath.basename (NodePath.resolve cwd [NodePath.dirname it.path, newName])
        = newName) := by
  constructor
  · intro hsep
    simp [FileSystemItem.rename, hsep]
  · intro segs hplain hpath hn hos
    have hnosep : '/' ∉ newName.toList := hn.2.2.2
    have hguard : containsSepStr (NodePath.normalize newName) = false := by
      have hnn : normalizeChars newName.data = newName.data := normalize_plain _ hn
      have hns2 : '/' ∉ newName.data := hnosep
      simp [containsSepStr, NodePath.normalize, hnn, hns2]
    have hdirname : dirnameChars it.path.toList = '/' :: joinSegs segs.dropLast := by
      rw [hpath]
      exact dirname_goodAbs segs hplain
    have hplaindl : ∀ s ∈ segs.dropLast, PlainSeg s :=
      fun s hs => hplain s (mem_dropLast_mem segs s hs)
    have hgood2 : ∀ s ∈ segs.dropLast ++ [newName.toList], PlainSeg s := by
      intro s hs
      rcases List.mem_append.mp hs with h3 | h3
      · exact hplaindl s h3
      · simp at h3
        subst h3
        exact hn
    have hnp : (NodePath.resolve cwd [NodePath.dirname it.path, newName]).toList
        = '/' :: joinSegs (segs.dropLast ++ [newName.toList]) := by
      show pathResolve cwd.toList [(NodePath.dirname it.path).toList, newName.toList] = _
      rw [show (NodePath.dirname it.path).toList = dirnameChars it.path.toList from rfl]
      rw [hdirname]
      exact pathResolve_plain_concat cwd.toList segs.dropLast newName.toList hplaindl hn
    refine ⟨?_, ?_, ?_⟩
    · simp [FileSystemItem.rename, hguard, hos]
    · show String.mk (dirnameChars (NodePath.resolve cwd
          [NodePath.dirname it.path, newName]).toList) = NodePath.dirname it.path
      rw [hnp, dirname_goodAbs (segs.dropLast ++ [newName.toList]) hgood2,
          List.dropLast_concat]
      show String.mk ('/' :: joinSegs segs.dropLast) = String.mk (dirnameChars it.path.toList)
      rw [hdirname]
    · show String.mk (basenameChars (NodePath.resolve cwd
          [NodePath.dirname it.path, newName]).toList) = newName
      rw [hnp, basename_concat segs.dropLast newName.toList hn.1 hn.2.2.2]
      exact mk_toList newName

theorem claim_C2_witness :
    PlainSeg ("c" : String).toList ∧
    ({ type := ItemType.File, path := "/a/b" } : FileSystemItem).path.toList
      = '/' :: joinSegs [['a'], ['b']] ∧
    (FileSystemItem.rename "/w" { type := .File, path := "/a/b" } "c" (fun _ _ => .ok ())
      = ({ type := .File, path := NodePath.resolve "/w" [NodePath.dirname "/a/b", "c"] },
          .ok (),
          [.osRename "/a/b" (NodePath.resolve "/w" [NodePath.dirname "/a/b", "c"])]) ∧
      NodePath.dirname (NodePath.resolve "/w" [NodePath.dirname "/a/b", "c"])
        = NodePath.dirname "/a/b" ∧
      NodePath.basename (NodePath.resolve "/w" [NodePath.dirname "/a/b", "c"]) = "c") := by
  refine ⟨by decide, by decide, ?_⟩
  exact (claim_C2 "/w" "c" { type := .File, path := "/a/b" } (fun _ _ => .ok ())).2
    [['a'], ['b']] (by decide) (by decide) (by decide) rfl

end LavaFile
